import Mathlib

/-!
Verification of the torrent metainfo / tracker core of the `dryas` repository
(`torrent/src/meta_info.rs`, `torrent/src/tracker.rs`).

Bytes are modelled as `Nat` (with explicit `< 256` bounds where the value
matters), byte strings as `List Nat`, Rust `Result`/serde errors as `Except`,
and a panicking path (`todo!()`, `.expect(..)`) as `Option.none`.

The file has two parts: all definitions (the embedding of the source), then
all theorems.
-/

namespace Dryas

/-- Serde decode errors, one constructor per `serde::de::Error` constructor
used by the source (`duplicate_field`, `unknown_field`, `missing_field`,
`E::custom`, plus a type mismatch for a value of the wrong shape). -/
inductive DecodeErr where
  | duplicateField (f : String)
  | unknownField (f : String)
  | missingField (f : String)
  | typeMismatch (expected : String)
  | custom (msg : String)
  deriving DecidableEq, Repr

deriving instance DecidableEq for Except

/-! ## Fixed-width binary list codec

`chunks_exact(w)` from the Rust standard library: consecutive
non-overlapping chunks of exactly `w` bytes, any shorter remainder dropped.
Implemented with a fuel argument (initially the length of the list) so that
it is structurally recursive and kernel-evaluable. -/

/-- One chunking step per unit of fuel: while at least `w` bytes remain,
emit `take w` and continue on `drop w`. -/
def chunksExactGo (w : Nat) : Nat → List Nat → List (List Nat)
  | 0, _ => []
  | f + 1, v => if w ≤ v.length ∧ w ≠ 0 then v.take w :: chunksExactGo w f (v.drop w) else []

/-- `v.chunks_exact(w)` from the source, as a total function. -/
def chunksExact (w : Nat) (v : List Nat) : List (List Nat) :=
  chunksExactGo w v.length v

/-! ## Piece hash list (`Hashes`)

`meta_info.rs`: `HashesVisitor::visit_bytes` decodes the raw `pieces` byte
string into `Vec<[u8; 20]>`; `impl Serialize for Hashes` concatenates the
20-byte arrays back into one byte string. A `[u8; 20]` array is modelled as
a `List Nat` of length 20. -/

namespace HashesVisitor

/-- `HashesVisitor::visit_bytes`: error unless the length is a multiple of
20, otherwise the consecutive 20-byte chunks in order. -/
def visit_bytes (v : List Nat) : Except DecodeErr (List (List Nat)) :=
  if v.length % 20 ≠ 0 then .error (.custom ("length is " ++ toString v.length))
  else .ok (chunksExact 20 v)

end HashesVisitor

/-- `impl Serialize for Hashes`: concatenate the 20-byte arrays in order
into a flat byte string. -/
def Hashes.serialize (hashes : List (List Nat)) : List Nat :=
  hashes.flatten

/-! ## Compact peer list (`Peers`)

`tracker.rs`: `PeersVisitor::visit_bytes` decodes a compact `peers` byte
string, 6 bytes per peer (4 IPv4 octets, then a big-endian `u16` port);
`impl Serialize for Peers` is the inverse concatenation. -/

/-- `std::net::Ipv4Addr` as its four octets. -/
structure Ipv4Addr where
  o0 : Nat
  o1 : Nat
  o2 : Nat
  o3 : Nat
  deriving DecidableEq, Repr

/-- `std::net::SocketAddrV4`: an IPv4 address and a 16-bit port. -/
structure SocketAddrV4 where
  ip : Ipv4Addr
  port : Nat
  deriving DecidableEq, Repr

/-- The body of the decoding loop of `PeersVisitor::visit_bytes`: a 6-byte
chunk gives `Ipv4Addr::new(chunk[0..4])` and
`u16::from_be_bytes([chunk[4], chunk[5]])`. -/
def peerOfChunk (c : List Nat) : SocketAddrV4 :=
  { ip := ⟨c.getD 0 0, c.getD 1 0, c.getD 2 0, c.getD 3 0⟩
    port := c.getD 4 0 * 256 + c.getD 5 0 }

namespace PeersVisitor

/-- `PeersVisitor::visit_bytes`: error unless the length is a multiple of
6, otherwise one peer per 6-byte chunk. -/
def visit_bytes (v : List Nat) : Except DecodeErr (List SocketAddrV4) :=
  if v.length % 6 ≠ 0 then .error (.custom ("invalid length: " ++ toString v.length))
  else .ok ((chunksExact 6 v).map peerOfChunk)

end PeersVisitor

/-- The 6 wire bytes of one peer (`ip().octets()` then
`port().to_be_bytes()`; the `% 256` casts mirror the `u8` lanes of
`u16::to_be_bytes`, and are the identity for a `u16` port). -/
def SocketAddrV4.beBytes (p : SocketAddrV4) : List Nat :=
  [p.ip.o0, p.ip.o1, p.ip.o2, p.ip.o3, p.port / 256 % 256, p.port % 256]

/-- `impl Serialize for Peers`: the concatenation of each peer's 6 bytes. -/
def Peers.serialize (peers : List SocketAddrV4) : List Nat :=
  (peers.map SocketAddrV4.beBytes).flatten

/-- A peer whose octets are bytes and whose port is a `u16` (true of every
peer the Rust types can hold). -/
def SocketAddrV4.wf (p : SocketAddrV4) : Prop :=
  p.ip.o0 < 256 ∧ p.ip.o1 < 256 ∧ p.ip.o2 < 256 ∧ p.ip.o3 < 256 ∧ p.port < 65536

instance (p : SocketAddrV4) : Decidable p.wf := by
  unfold SocketAddrV4.wf
  infer_instance

/-! ## UTF-8 validity

Modelled from the Rust standard library: a Rust `String` holds valid UTF-8
(RFC 3629) and nothing else, so decoding a bencode byte string into a
`String` checks this predicate, and no `String` can hold a byte sequence
that fails it. -/

/-- A UTF-8 continuation byte (`0x80 ..= 0xBF`). -/
def contB (b : Nat) : Bool :=
  decide (128 ≤ b) && decide (b < 192)

/-- RFC 3629 validity of a byte sequence, exactly the shortest-form,
surrogate-free ranges accepted by `str::from_utf8`. -/
def validUtf8 : List Nat → Bool
  | [] => true
  | b :: r =>
    if b < 128 then validUtf8 r
    else if 194 ≤ b ∧ b ≤ 223 then
      match r with
      | c :: r' => contB c && validUtf8 r'
      | [] => false
    else if b = 224 then
      match r with
      | c :: d :: r' => decide (160 ≤ c) && decide (c ≤ 191) && contB d && validUtf8 r'
      | _ => false
    else if (225 ≤ b ∧ b ≤ 236) ∨ b = 238 ∨ b = 239 then
      match r with
      | c :: d :: r' => contB c && contB d && validUtf8 r'
      | _ => false
    else if b = 237 then
      match r with
      | c :: d :: r' => decide (128 ≤ c) && decide (c ≤ 159) && contB d && validUtf8 r'
      | _ => false
    else if b = 240 then
      match r with
      | c :: d :: e :: r' => decide (144 ≤ c) && decide (c ≤ 191) && contB d && contB e && validUtf8 r'
      | _ => false
    else if 241 ≤ b ∧ b ≤ 243 then
      match r with
      | c :: d :: e :: r' => contB c && contB d && contB e && validUtf8 r'
      | _ => false
    else if b = 244 then
      match r with
      | c :: d :: e :: r' => decide (128 ≤ c) && decide (c ≤ 143) && contB d && contB e && validUtf8 r'
      | _ => false
    else false

/-! ## Bencode values

The decoded form of the self-describing binary format, as handed to the
serde visitors of the source: integers, byte strings, lists, and
dictionaries (ordered key/value sequences). Dictionary keys are `String`
since the source matches them as `&str`. -/

/-- A parsed bencode value. -/
inductive BValue where
  | int (n : Int)
  | bytes (s : List Nat)
  | list (xs : List BValue)
  | dict (entries : List (String × BValue))

/-- Deserializing a `usize` field: a non-negative integer. -/
def asUsize : BValue → Except DecodeErr Nat
  | .int n => if n < 0 then .error (.typeMismatch "usize") else .ok n.toNat
  | _ => .error (.typeMismatch "usize")

/-- Deserializing a `u8` field: an integer in `0 ..= 255`. -/
def asU8 : BValue → Except DecodeErr Nat
  | .int n => if 0 ≤ n ∧ n < 256 then .ok n.toNat else .error (.typeMismatch "u8")
  | _ => .error (.typeMismatch "u8")

/-- Deserializing a Rust `String`: a byte string holding valid UTF-8. -/
def asString : BValue → Except DecodeErr (List Nat)
  | .bytes s => if validUtf8 s then .ok s else .error (.typeMismatch "utf-8 string")
  | _ => .error (.typeMismatch "string")

/-- Deserializing each element of a `Vec<String>` in order. -/
def asStringListGo : List BValue → Except DecodeErr (List (List Nat))
  | [] => .ok []
  | v :: rest =>
    match asString v with
    | .ok s =>
      match asStringListGo rest with
      | .ok r => .ok (s :: r)
      | .error e => .error e
    | .error e => .error e

/-- Deserializing a `Vec<String>` field: a list of UTF-8 strings. -/
def asStringList : BValue → Except DecodeErr (List (List Nat))
  | .list xs => asStringListGo xs
  | _ => .error (.typeMismatch "list")

/-! ## `File` (one entry of a multi-file layout) -/

/-- `struct File` from `meta_info.rs`: a length in bytes and a list of
path segments. -/
structure File where
  length : Nat
  path : List (List Nat)
  deriving DecidableEq, Repr

/-- The map loop of serde's derived `Deserialize` for `File`: known fields
with duplicate checks, unknown fields ignored (serde's default), then both
fields required. -/
def decodeFileEntries : Option Nat → Option (List (List Nat)) →
    List (String × BValue) → Except DecodeErr File
  | len?, path?, [] =>
    match len?, path? with
    | some l, some p => .ok ⟨l, p⟩
    | none, _ => .error (.missingField "length")
    | some _, none => .error (.missingField "path")
  | len?, path?, (k, v) :: rest =>
    if k = "length" then
      if len?.isSome then .error (.duplicateField "length")
      else
        match asUsize v with
        | .ok n => decodeFileEntries (some n) path? rest
        | .error e => .error e
    else if k = "path" then
      if path?.isSome then .error (.duplicateField "path")
      else
        match asStringList v with
        | .ok p => decodeFileEntries len? (some p) rest
        | .error e => .error e
    else decodeFileEntries len? path? rest

/-- Derived `Deserialize` for `File`: a map decoded by
`decodeFileEntries`. -/
def decodeFile : BValue → Except DecodeErr File
  | .dict es => decodeFileEntries none none es
  | _ => .error (.typeMismatch "map")

/-- Deserializing each element of a `Vec<File>` in order. -/
def decodeFileListGo : List BValue → Except DecodeErr (List File)
  | [] => .ok []
  | v :: rest =>
    match decodeFile v with
    | .ok f =>
      match decodeFileListGo rest with
      | .ok r => .ok (f :: r)
      | .error e => .error e
    | .error e => .error e

/-- Deserializing a `Vec<File>` field. -/
def decodeFileList : BValue → Except DecodeErr (List File)
  | .list xs => decodeFileListGo xs
  | _ => .error (.typeMismatch "list")

/-! ## `Key` (the single-file / multi-file layout) and `KeysVisitor` -/

/-- `enum Key` from `meta_info.rs`. -/
inductive Key where
  | SingleFile (length : Nat)
  | MultiFile (files : List File)
  deriving DecidableEq, Repr

namespace KeysVisitor

/-- The map loop of `KeysVisitor::visit_map`, carrying the two `Option`
accumulators of the source: `length` and `files` each decode at most once
(`duplicate_field` otherwise), any other key is `unknown_field`; at the end
a present `length` wins, then a present `files`, else
`missing_field("length or files")`. -/
def visitGo : Option Nat → Option (List File) → List (String × BValue) →
    Except DecodeErr Key
  | length?, files?, [] =>
    match length? with
    | some l => .ok (.SingleFile l)
    | none =>
      match files? with
      | some fs => .ok (.MultiFile fs)
      | none => .error (.missingField "length or files")
  | length?, files?, (k, v) :: rest =>
    if k = "length" then
      if length?.isSome then .error (.duplicateField "length")
      else
        match asUsize v with
        | .ok n => visitGo (some n) files? rest
        | .error e => .error e
    else if k = "files" then
      if files?.isSome then .error (.duplicateField "files")
      else
        match decodeFileList v with
        | .ok fs => visitGo length? (some fs) rest
        | .error e => .error e
    else .error (.unknownField k)

/-- `KeysVisitor::visit_map` on the key/value sequence of the map. -/
def visit_map (entries : List (String × BValue)) : Except DecodeErr Key :=
  visitGo none none entries

end KeysVisitor

/-! ## `Info` (the content metadata dictionary) -/

/-- `struct Info` from `meta_info.rs`. The Rust field `private` is a Lean
keyword and is named `privateFlag` here. -/
structure Info where
  name : List Nat
  piece_length : Nat
  pieces : List (List Nat)
  privateFlag : Option Nat
  key : Key
  deriving DecidableEq, Repr

/-- The map loop of serde's derived `Deserialize` for `Info` with
`#[serde(flatten)]` on `key`: the four named fields are consumed with
duplicate checks, every other key is buffered in order and handed to
`KeysVisitor::visit_map` at the end; `name`, `piece length` and `pieces`
are required, `private` is optional. -/
def decodeInfoGo : Option (List Nat) → Option Nat → Option (List (List Nat)) →
    Option Nat → List (String × BValue) → List (String × BValue) →
    Except DecodeErr Info
  | name?, plen?, pieces?, priv?, leftover, [] =>
    match name? with
    | none => .error (.missingField "name")
    | some nm =>
      match plen? with
      | none => .error (.missingField "piece length")
      | some pl =>
        match pieces? with
        | none => .error (.missingField "pieces")
        | some ps =>
          match KeysVisitor.visit_map leftover with
          | .ok k => .ok ⟨nm, pl, ps, priv?, k⟩
          | .error e => .error e
  | name?, plen?, pieces?, priv?, leftover, (k, v) :: rest =>
    if k = "name" then
      if name?.isSome then .error (.duplicateField "name")
      else
        match asString v with
        | .ok s => decodeInfoGo (some s) plen? pieces? priv? leftover rest
        | .error e => .error e
    else if k = "piece length" then
      if plen?.isSome then .error (.duplicateField "piece length")
      else
        match asUsize v with
        | .ok n => decodeInfoGo name? (some n) pieces? priv? leftover rest
        | .error e => .error e
    else if k = "pieces" then
      if pieces?.isSome then .error (.duplicateField "pieces")
      else
        match v with
        | .bytes b =>
          match HashesVisitor.visit_bytes b with
          | .ok hs => decodeInfoGo name? plen? (some hs) priv? leftover rest
          | .error e => .error e
        | _ => .error (.typeMismatch "bytes")
    else if k = "private" then
      if priv?.isSome then .error (.duplicateField "private")
      else
        match asU8 v with
        | .ok n => decodeInfoGo name? plen? pieces? (some n) leftover rest
        | .error e => .error e
    else decodeInfoGo name? plen? pieces? priv? (leftover ++ [(k, v)]) rest

/-- Decoding an `info` dictionary into `Info`. -/
def decodeInfo : BValue → Except DecodeErr Info
  | .dict es => decodeInfoGo none none none none [] es
  | _ => .error (.typeMismatch "map")

/-- `Info::private`: absent or zero means `false`, any other value
`true`. -/
def Info.private_ (i : Info) : Bool :=
  match i.privateFlag with
  | some 0 => false
  | some _ => true
  | none => false

/-! ## `MetaInfo` (the whole torrent description) -/

/-- `struct MetaInfo` from `meta_info.rs`; optional passthrough metadata
kept as plain optional bytes/structures. -/
structure MetaInfo where
  info : Info
  announce : List Nat
  announce_list : Option (List (List (List Nat)))
  creation_date : Option Nat
  comment : Option (List Nat)
  created_by : Option (List Nat)
  encoding : Option (List Nat)
  deriving DecidableEq, Repr

/-- `MetaInfo::len`: the declared length in the single-file case; the
multi-file arm is `todo!()` in the source, modelled as `none` (no value is
returned, the call panics). -/
def MetaInfo.len (m : MetaInfo) : Option Nat :=
  match m.info.key with
  | .SingleFile length => some length
  | .MultiFile _ => none

/-- `MetaInfo::is_empty`, which calls `self.len() == 0` and therefore also
reaches the `todo!()` in the multi-file case. -/
def MetaInfo.is_empty (m : MetaInfo) : Option Bool :=
  m.len.map fun l => l == 0

/-- A concrete single-file description used to exercise `MetaInfo::len`. -/
def sampleSingleFileMeta : MetaInfo where
  info := { name := [97], piece_length := 4, pieces := [], privateFlag := none,
            key := .SingleFile 4 }
  announce := []
  announce_list := none
  creation_date := none
  comment := none
  created_by := none
  encoding := none

/-- A concrete multi-file description used to exercise `MetaInfo::len`. -/
def sampleMultiFileMeta : MetaInfo where
  info := { name := [97], piece_length := 4, pieces := [], privateFlag := none,
            key := .MultiFile [] }
  announce := []
  announce_list := none
  creation_date := none
  comment := none
  created_by := none
  encoding := none

/-! ## Spec-side quantities for the piece-count claim -/

/-- Stated from the spec: `total_content_length` is the single `length`
value in the single-file case and the sum of the file lengths in the
multi-file case. -/
def specTotalContentLength : Key → Nat
  | .SingleFile length => length
  | .MultiFile files => (files.map File.length).sum

/-- Ceiling division, for the spec's `ceil(total_content_length /
piece_length)`. -/
def ceilDiv (a b : Nat) : Nat :=
  (a + b - 1) / b

/-! ## Tracker response decoding (`tracker.rs`) -/

/-- `struct TrackerFailureResponse`: the `failure reason` string. -/
structure TrackerFailureResponse where
  failure_reason : List Nat
  deriving DecidableEq, Repr

/-- `struct TrackerPeerResponse`: the rerequest interval and the decoded
compact peer list. -/
structure TrackerPeerResponse where
  interval : Nat
  peers : List SocketAddrV4
  deriving DecidableEq, Repr

/-- `enum TrackerResponse`, `#[serde(untagged)]` with `Success` declared
first. -/
inductive TrackerResponse where
  | Success (r : TrackerPeerResponse)
  | Failure (r : TrackerFailureResponse)
  deriving DecidableEq, Repr

/-- The map loop of serde's derived `Deserialize` for
`TrackerPeerResponse`: `interval` as `usize` and `peers` through
`PeersVisitor`, duplicates rejected, unknown keys ignored (serde's
default), both fields required. -/
def decodePeerResponseEntries : Option Nat → Option (List SocketAddrV4) →
    List (String × BValue) → Except DecodeErr TrackerPeerResponse
  | int?, peers?, [] =>
    match int?, peers? with
    | some i, some ps => .ok ⟨i, ps⟩
    | none, _ => .error (.missingField "interval")
    | some _, none => .error (.missingField "peers")
  | int?, peers?, (k, v) :: rest =>
    if k = "interval" then
      if int?.isSome then .error (.duplicateField "interval")
      else
        match asUsize v with
        | .ok n => decodePeerResponseEntries (some n) peers? rest
        | .error e => .error e
    else if k = "peers" then
      if peers?.isSome then .error (.duplicateField "peers")
      else
        match v with
        | .bytes b =>
          match PeersVisitor.visit_bytes b with
          | .ok ps => decodePeerResponseEntries int? (some ps) rest
          | .error e => .error e
        | _ => .error (.typeMismatch "bytes")
    else decodePeerResponseEntries int? peers? rest

/-- Derived `Deserialize` for `TrackerPeerResponse` on a bencode value. -/
def decodeTrackerPeerResponse : BValue → Except DecodeErr TrackerPeerResponse
  | .dict es => decodePeerResponseEntries none none es
  | _ => .error (.typeMismatch "map")

/-- The map loop of serde's derived `Deserialize` for
`TrackerFailureResponse`: only the renamed `failure reason` field, which
is required; unknown keys ignored. -/
def decodeFailureResponseEntries : Option (List Nat) →
    List (String × BValue) → Except DecodeErr TrackerFailureResponse
  | fr?, [] =>
    match fr? with
    | some r => .ok ⟨r⟩
    | none => .error (.missingField "failure reason")
  | fr?, (k, v) :: rest =>
    if k = "failure reason" then
      if fr?.isSome then .error (.duplicateField "failure reason")
      else
        match asString v with
        | .ok s => decodeFailureResponseEntries (some s) rest
        | .error e => .error e
    else decodeFailureResponseEntries fr? rest

/-- Derived `Deserialize` for `TrackerFailureResponse` on a bencode
value. -/
def decodeTrackerFailureResponse : BValue → Except DecodeErr TrackerFailureResponse
  | .dict es => decodeFailureResponseEntries none es
  | _ => .error (.typeMismatch "map")

/-- `#[serde(untagged)]` deserialization of `TrackerResponse`: the
variants are tried in declaration order, `Success` first and `Failure`
second; `none` when neither shape decodes (serde's
"data did not match any variant"). -/
def decodeTrackerResponse (v : BValue) : Option TrackerResponse :=
  match decodeTrackerPeerResponse v with
  | .ok r => some (.Success r)
  | .error _ =>
    match decodeTrackerFailureResponse v with
    | .ok r => some (.Failure r)
    | .error _ => none

/-- The tail of `Tracker::request` once a transport-level response body
has been obtained: the body is bencode-decoded into `TrackerResponse` (a
decode failure panics through `.expect`, modelled as `none`) and the
decoded response is returned as `Ok`. `Except Unit` models the source's
`Result<TrackerResponse, ()>`. -/
def Tracker.responseOfBody (body : BValue) : Option (Except Unit TrackerResponse) :=
  (decodeTrackerResponse body).map Except.ok

/-! ## Canonical bencode encoding of `Info`

`Info::hash` runs `serde_bencode::to_bytes(&self)` over the derived
`Serialize` of `Info`. The bencode serialization primitive is a library
dependency; modelled from the spec: the canonical form of the
self-describing binary format writes dictionaries with keys sorted by byte
value, integers in decimal without redundant digit forms, and byte strings
with a decimal length prefix. The derived `Serialize` emits the struct
fields under their (renamed) names, and the `#[serde(flatten)]` `key`
field adds one entry named after the active `Key` variant whose value is
the map of that variant's fields (serde's externally tagged enum form). -/

/-- Decimal ASCII digits of `n`, most significant first (fuel-driven; `n`
itself always suffices as fuel). -/
def digitsGo : Nat → Nat → List Nat
  | 0, _ => []
  | f + 1, n => if n < 10 then [48 + n] else digitsGo f (n / 10) ++ [48 + n % 10]

/-- Decimal ASCII representation of a natural number. -/
def natDecDigits (n : Nat) : List Nat :=
  digitsGo (n + 1) n

/-- Bencode integer: `i<digits>e` (only non-negative integers are ever
serialized by the source). -/
def encNat (n : Nat) : List Nat :=
  [105] ++ natDecDigits n ++ [101]

/-- Bencode byte string: `<decimal length>:<bytes>`. -/
def encBytes (b : List Nat) : List Nat :=
  natDecDigits b.length ++ [58] ++ b

/-- Bencode list: `l<elements>e` (elements already encoded). -/
def encList (xs : List (List Nat)) : List Nat :=
  [108] ++ xs.flatten ++ [101]

/-- Byte-lexicographic order on keys. -/
def lexLe : List Nat → List Nat → Bool
  | [], _ => true
  | _ :: _, [] => false
  | a :: as, b :: bs => if a < b then true else if b < a then false else lexLe as bs

/-- Insertion into a key-sorted entry list. -/
def insertEntry (e : List Nat × List Nat) :
    List (List Nat × List Nat) → List (List Nat × List Nat)
  | [] => [e]
  | f :: fs => if lexLe e.1 f.1 then e :: f :: fs else f :: insertEntry e fs

/-- Insertion sort of dictionary entries by key bytes. -/
def sortEntries : List (List Nat × List Nat) → List (List Nat × List Nat)
  | [] => []
  | e :: es => insertEntry e (sortEntries es)

/-- Bencode dictionary: `d<sorted key/value pairs>e` (values already
encoded). -/
def encDict (es : List (List Nat × List Nat)) : List Nat :=
  [100] ++ ((sortEntries es).map fun e => encBytes e.1 ++ e.2).flatten ++ [101]

/-- The UTF-8 (here: ASCII) bytes of a field name. -/
def keyBytesOf (s : String) : List Nat :=
  s.data.map Char.toNat

/-- Derived `Serialize` for `File`: a dictionary with `length` and
`path`. -/
def bencodeFile (f : File) : List Nat :=
  encDict [(keyBytesOf "length", encNat f.length),
           (keyBytesOf "path", encList (f.path.map encBytes))]

/-- The flattened `key` field: one entry named after the active variant,
holding the map of that variant's fields. -/
def bencodeKeyEntry : Key → List Nat × List Nat
  | .SingleFile l => (keyBytesOf "SingleFile", encDict [(keyBytesOf "length", encNat l)])
  | .MultiFile fs =>
    (keyBytesOf "MultiFile", encDict [(keyBytesOf "files", encList (fs.map bencodeFile))])

/-- `serde_bencode::to_bytes(&info)`: the canonical dictionary of the
serialized fields (an absent `private` is skipped). -/
def bencodeInfo (i : Info) : List Nat :=
  encDict
    ([(keyBytesOf "name", encBytes i.name),
      (keyBytesOf "piece length", encNat i.piece_length),
      (keyBytesOf "pieces", encBytes (Hashes.serialize i.pieces))] ++
     (match i.privateFlag with
      | some v => [(keyBytesOf "private", encNat v)]
      | none => []) ++
     [bencodeKeyEntry i.key])

/-! ## SHA-1 (`sha1_smol`), modelled from the standard algorithm

`Info::hash` feeds the bencoded bytes to `sha1_smol::Sha1` and returns the
20-byte digest. 32-bit words are `Nat` reduced modulo `2 ^ 32` at every
operation that can overflow. -/

/-- Rotate a 32-bit word left by `k`. -/
def rotl32 (k w : Nat) : Nat :=
  ((w <<< k) ||| (w >>> (32 - k))) % 4294967296

/-- Big-endian 32-bit word from a 4-byte chunk. -/
def be32 (c : List Nat) : Nat :=
  c.getD 0 0 * 16777216 + c.getD 1 0 * 65536 + c.getD 2 0 * 256 + c.getD 3 0

/-- Big-endian bytes of a 32-bit word. -/
def be32Bytes (w : Nat) : List Nat :=
  [w / 16777216 % 256, w / 65536 % 256, w / 256 % 256, w % 256]

/-- Big-endian bytes of the 64-bit message bit length. -/
def be64Bytes (n : Nat) : List Nat :=
  [n / 72057594037927936 % 256, n / 281474976710656 % 256, n / 1099511627776 % 256,
   n / 4294967296 % 256, n / 16777216 % 256, n / 65536 % 256, n / 256 % 256, n % 256]

/-- SHA-1 padding: a `0x80` byte, zeros to 56 mod 64, then the bit length
as 8 big-endian bytes. -/
def sha1Pad (msg : List Nat) : List Nat :=
  msg ++ [128] ++ List.replicate ((55 + 64 - msg.length % 64) % 64) 0 ++
    be64Bytes (8 * msg.length)

/-- The five 32-bit state words of SHA-1. -/
structure Sha1State where
  h0 : Nat
  h1 : Nat
  h2 : Nat
  h3 : Nat
  h4 : Nat
  deriving DecidableEq, Repr

/-- Message schedule extension, one new word per unit of fuel; the
accumulator holds the words produced so far in reverse, so
`w[i-3], w[i-8], w[i-14], w[i-16]` sit at indices 2, 7, 13, 15. -/
def sha1Extend : Nat → List Nat → List Nat
  | 0, acc => acc
  | f + 1, acc =>
    sha1Extend f
      (rotl32 1 (acc.getD 2 0 ^^^ acc.getD 7 0 ^^^ acc.getD 13 0 ^^^ acc.getD 15 0) :: acc)

/-- The 80 schedule words of one 64-byte block. -/
def sha1Words (block : List Nat) : List Nat :=
  (sha1Extend 64 (((chunksExact 4 block).map be32).reverse)).reverse

/-- The round function, per round group. -/
def sha1F (i b c d : Nat) : Nat :=
  if i < 20 then (b &&& c) ||| ((b ^^^ 4294967295) &&& d)
  else if i < 40 then b ^^^ c ^^^ d
  else if i < 60 then (b &&& c) ||| (b &&& d) ||| (c &&& d)
  else b ^^^ c ^^^ d

/-- The round constant, per round group. -/
def sha1K (i : Nat) : Nat :=
  if i < 20 then 1518500249
  else if i < 40 then 1859775393
  else if i < 60 then 2400959708
  else 3395469782

/-- One compression round; the state carries the round index. -/
def sha1Round (s : Sha1State × Nat) (w : Nat) : Sha1State × Nat :=
  let st := s.1
  let i := s.2
  let temp := (rotl32 5 st.h0 + sha1F i st.h1 st.h2 st.h3 + st.h4 + sha1K i + w) % 4294967296
  (⟨temp, st.h0, rotl32 30 st.h1, st.h2, st.h3⟩, i + 1)

/-- Compress one 64-byte block into the running state. -/
def sha1Block (st : Sha1State) (block : List Nat) : Sha1State :=
  let r := ((sha1Words block).foldl sha1Round (st, 0)).1
  ⟨(st.h0 + r.h0) % 4294967296, (st.h1 + r.h1) % 4294967296, (st.h2 + r.h2) % 4294967296,
   (st.h3 + r.h3) % 4294967296, (st.h4 + r.h4) % 4294967296⟩

/-- The SHA-1 initialization vector. -/
def sha1Init : Sha1State :=
  ⟨1732584193, 4023233417, 2562383102, 271733878, 3285377520⟩

/-- The 20 digest bytes of a final state. -/
def sha1DigestBytes (s : Sha1State) : List Nat :=
  be32Bytes s.h0 ++ be32Bytes s.h1 ++ be32Bytes s.h2 ++ be32Bytes s.h3 ++ be32Bytes s.h4

/-- SHA-1 of a byte string. -/
def sha1 (msg : List Nat) : List Nat :=
  sha1DigestBytes ((chunksExact 64 (sha1Pad msg)).foldl sha1Block sha1Init)

/-- `Info::hash`: SHA-1 over the bencoded `Info`, as raw digest bytes
(`digest().bytes()`). -/
def Info.hash (i : Info) : List Nat :=
  sha1 (bencodeInfo i)

/-- A concrete `Info` used to evaluate the fingerprint pipeline. -/
def sampleC7Info : Info where
  name := [97]
  piece_length := 1
  pieces := [List.replicate 20 0]
  privateFlag := some 1
  key := .SingleFile 1

/-! # Theorems -/

/-! ## Chunk codec lemmas -/

theorem chunksExactGo_congr (w : Nat) :
    ∀ (f g : Nat) (v : List Nat), v.length ≤ f → v.length ≤ g →
      chunksExactGo w f v = chunksExactGo w g v := by
  intro f
  induction f with
  | zero =>
    intro g v hf hg
    have hveq : v = [] := List.eq_nil_of_length_eq_zero (Nat.le_zero.mp hf)
    subst hveq
    cases g with
    | zero => rfl
    | succ g =>
      simp only [chunksExactGo, List.length_nil]
      rw [if_neg]
      rintro ⟨h1, h2⟩
      exact h2 (Nat.le_zero.mp h1)
  | succ f ih =>
    intro g v hf hg
    cases g with
    | zero =>
      have hveq : v = [] := List.eq_nil_of_length_eq_zero (Nat.le_zero.mp hg)
      subst hveq
      simp only [chunksExactGo, List.length_nil]
      rw [if_neg]
      rintro ⟨h1, h2⟩
      exact h2 (Nat.le_zero.mp h1)
    | succ g =>
      simp only [chunksExactGo]
      by_cases hc : w ≤ v.length ∧ w ≠ 0
      · rw [if_pos hc, if_pos hc]
        have hwpos : 0 < w := Nat.pos_of_ne_zero hc.2
        have hdl : (v.drop w).length = v.length - w := by simp
        rw [ih g (v.drop w) (by omega) (by omega)]
      · rw [if_neg hc, if_neg hc]

theorem chunksExactGo_eq_chunksExact (w f : Nat) (v : List Nat) (h : v.length ≤ f) :
    chunksExactGo w f v = chunksExact w v :=
  chunksExactGo_congr w f v.length v h (Nat.le_refl _)

/-- Each chunk produced by `chunksExact` has length exactly `w`. -/
theorem chunksExact_chunk_length (w : Nat) (v : List Nat) :
    ∀ c ∈ chunksExact w v, c.length = w := by
  rw [chunksExact]
  have hle : v.length ≤ v.length := Nat.le_refl _
  generalize v.length = f at hle ⊢
  clear hle
  induction f generalizing v with
  | zero => intro c hc; simp [chunksExactGo] at hc
  | succ f ih =>
    intro c hc
    simp only [chunksExactGo] at hc
    by_cases hcond : w ≤ v.length ∧ w ≠ 0
    · rw [if_pos hcond] at hc
      rcases List.mem_cons.mp hc with h | h
      · subst h
        simp [List.length_take, Nat.min_eq_left hcond.1]
      · exact ih (v.drop w) c h
    · rw [if_neg hcond] at hc
      simp at hc

/-- Every byte of every chunk is a byte of the original list. -/
theorem chunksExact_chunk_mem (w : Nat) (v : List Nat) :
    ∀ c ∈ chunksExact w v, ∀ x ∈ c, x ∈ v := by
  rw [chunksExact]
  have hle : v.length ≤ v.length := Nat.le_refl _
  generalize v.length = f at hle ⊢
  clear hle
  induction f generalizing v with
  | zero => intro c hc; simp [chunksExactGo] at hc
  | succ f ih =>
    intro c hc x hx
    simp only [chunksExactGo] at hc
    by_cases hcond : w ≤ v.length ∧ w ≠ 0
    · rw [if_pos hcond] at hc
      rcases List.mem_cons.mp hc with h | h
      · subst h
        exact List.take_subset w v hx
      · exact List.drop_subset w v (ih (v.drop w) c h x hx)
    · rw [if_neg hcond] at hc
      simp at hc

theorem chunksExactGo_flatten (w : Nat) (hw : w ≠ 0) :
    ∀ (f : Nat) (v : List Nat), v.length ≤ f → v.length % w = 0 →
      (chunksExactGo w f v).flatten = v := by
  intro f
  induction f with
  | zero =>
    intro v hle _
    have : v = [] := List.eq_nil_of_length_eq_zero (Nat.le_zero.mp hle)
    subst this
    simp [chunksExactGo]
  | succ f ih =>
    intro v hle hmod
    simp only [chunksExactGo]
    by_cases hcond : w ≤ v.length ∧ w ≠ 0
    · rw [if_pos hcond]
      have hdl : (v.drop w).length = v.length - w := by simp
      have hwpos : 0 < w := Nat.pos_of_ne_zero hw
      have hdvd : w ∣ v.length := Nat.dvd_of_mod_eq_zero hmod
      have hdvd' : w ∣ v.length - w := Nat.dvd_sub' hdvd (dvd_refl w)
      rw [List.flatten_cons,
        ih (v.drop w) (by omega) (by rw [hdl]; exact Nat.mod_eq_zero_of_dvd hdvd')]
      exact List.take_append_drop w v
    · rw [if_neg hcond]
      have hlt : v.length < w := by
        rcases Nat.lt_or_ge v.length w with h | h
        · exact h
        · exact absurd ⟨h, hw⟩ hcond
      have hdvd : w ∣ v.length := Nat.dvd_of_mod_eq_zero hmod
      have h0 : v.length = 0 := Nat.eq_zero_of_dvd_of_lt hdvd hlt
      have : v = [] := List.eq_nil_of_length_eq_zero h0
      subst this
      rfl

/-- Concatenating the chunks of a list whose length `w` divides gives back
the list. -/
theorem flatten_chunksExact (w : Nat) (hw : w ≠ 0) (v : List Nat)
    (hv : v.length % w = 0) : (chunksExact w v).flatten = v :=
  chunksExactGo_flatten w hw v.length v (Nat.le_refl _) hv

theorem chunksExactGo_flatten_inv (w : Nat) (hw : w ≠ 0) :
    ∀ (xs : List (List Nat)) (f : Nat), xs.flatten.length ≤ f →
      (∀ c ∈ xs, c.length = w) → chunksExactGo w f xs.flatten = xs := by
  intro xs
  induction xs with
  | nil =>
    intro f _ _
    cases f with
    | zero => rfl
    | succ f =>
      simp only [List.flatten_nil, chunksExactGo, List.length_nil]
      rw [if_neg]
      rintro ⟨h1, h2⟩
      exact h2 (Nat.le_zero.mp h1)
  | cons c xs ih =>
    intro f hf hxs
    have hc : c.length = w := hxs c (List.mem_cons_self c xs)
    have hxs' : ∀ d ∈ xs, d.length = w := fun d hd => hxs d (List.mem_cons_of_mem c hd)
    have hlen : (c :: xs).flatten.length = w + xs.flatten.length := by
      simp [List.flatten_cons, hc]
    have hwpos : 0 < w := Nat.pos_of_ne_zero hw
    cases f with
    | zero => rw [hlen] at hf; omega
    | succ f =>
      simp only [chunksExactGo]
      have hcond : w ≤ (List.flatten (c :: xs)).length ∧ w ≠ 0 := by
        constructor
        · rw [hlen]; omega
        · exact hw
      rw [if_pos hcond]
      have htake : (c :: xs).flatten.take w = c := by
        rw [List.flatten_cons, List.take_append_of_le_length (by omega), ← hc, List.take_length]
      have hdrop : (c :: xs).flatten.drop w = xs.flatten := by
        rw [List.flatten_cons, List.drop_append_of_le_length (by omega), ← hc, List.drop_length,
          List.nil_append]
      rw [htake, hdrop, ih f (by rw [hlen] at hf; omega) hxs']

/-- Chunking the concatenation of same-width chunks recovers the chunks. -/
theorem chunksExact_flatten (w : Nat) (hw : w ≠ 0) (xs : List (List Nat))
    (hxs : ∀ c ∈ xs, c.length = w) : chunksExact w xs.flatten = xs := by
  rw [chunksExact]
  exact chunksExactGo_flatten_inv w hw xs xs.flatten.length (Nat.le_refl _) hxs

theorem chunksExactGo_length (w : Nat) (hw : w ≠ 0) :
    ∀ (f : Nat) (v : List Nat), v.length ≤ f → v.length % w = 0 →
      (chunksExactGo w f v).length = v.length / w := by
  intro f
  induction f with
  | zero =>
    intro v hle _
    have : v = [] := List.eq_nil_of_length_eq_zero (Nat.le_zero.mp hle)
    subst this
    simp [chunksExactGo]
  | succ f ih =>
    intro v hle hmod
    simp only [chunksExactGo]
    by_cases hcond : w ≤ v.length ∧ w ≠ 0
    · rw [if_pos hcond]
      have hdl : (v.drop w).length = v.length - w := by simp
      have hwpos : 0 < w := Nat.pos_of_ne_zero hw
      have hdvd : w ∣ v.length := Nat.dvd_of_mod_eq_zero hmod
      have hdvd' : w ∣ v.length - w := Nat.dvd_sub' hdvd (dvd_refl w)
      rw [List.length_cons,
        ih (v.drop w) (by omega) (by rw [hdl]; exact Nat.mod_eq_zero_of_dvd hdvd'),
        hdl]
      rcases Nat.exists_eq_add_of_le hcond.1 with ⟨k, hk⟩
      rw [hk]
      rw [Nat.add_sub_cancel_left, Nat.add_comm w k, Nat.add_div_right k hwpos]
    · rw [if_neg hcond]
      have hlt : v.length < w := by
        rcases Nat.lt_or_ge v.length w with h | h
        · exact h
        · exact absurd ⟨h, hw⟩ hcond
      have hdvd : w ∣ v.length := Nat.dvd_of_mod_eq_zero hmod
      have h0 : v.length = 0 := Nat.eq_zero_of_dvd_of_lt hdvd hlt
      simp [h0]

/-- The number of chunks is the length divided by the width. -/
theorem chunksExact_length (w : Nat) (hw : w ≠ 0) (v : List Nat)
    (hv : v.length % w = 0) : (chunksExact w v).length = v.length / w :=
  chunksExactGo_length w hw v.length v (Nat.le_refl _) hv

theorem Hashes.serialize_length_multiple_of_20 (xs : List (List Nat))
    (hxs : ∀ c ∈ xs, c.length = 20) : (Hashes.serialize xs).length % 20 = 0 := by
  induction xs with
  | nil => rfl
  | cons c xs ih =>
    have hc : c.length = 20 := hxs c (List.mem_cons_self c xs)
    have ih' := ih fun d hd => hxs d (List.mem_cons_of_mem c hd)
    simp only [Hashes.serialize, List.flatten_cons, List.length_append, hc] at *
    omega

theorem peerOfChunk_beBytes (p : SocketAddrV4) (hp : p.wf) :
    peerOfChunk p.beBytes = p := by
  obtain ⟨⟨o0, o1, o2, o3⟩, port⟩ := p
  simp only [SocketAddrV4.wf] at hp
  obtain ⟨h0, h1, h2, h3, h4⟩ := hp
  simp only [peerOfChunk, SocketAddrV4.beBytes, List.getD, List.get?_cons_succ,
    List.get?_cons_zero, Option.getD_some, SocketAddrV4.mk.injEq, Ipv4Addr.mk.injEq,
    true_and, and_true]
  omega

theorem beBytes_peerOfChunk (c : List Nat) (hc : c.length = 6)
    (hb : ∀ x ∈ c, x < 256) : (peerOfChunk c).beBytes = c := by
  match c, hc with
  | [a, b, c', d, e, f], _ =>
    have he : e < 256 := hb e (by simp)
    have hf : f < 256 := hb f (by simp)
    simp only [peerOfChunk, SocketAddrV4.beBytes, List.getD, List.get?_cons_succ,
      List.get?_cons_zero, Option.getD_some]
    refine List.cons_eq_cons.mpr ⟨rfl, ?_⟩
    refine List.cons_eq_cons.mpr ⟨rfl, ?_⟩
    refine List.cons_eq_cons.mpr ⟨rfl, ?_⟩
    refine List.cons_eq_cons.mpr ⟨rfl, ?_⟩
    refine List.cons_eq_cons.mpr ⟨?_, ?_⟩
    · omega
    · refine List.cons_eq_cons.mpr ⟨?_, rfl⟩
      omega

theorem Peers.serialize_length_multiple_of_6 (ps : List SocketAddrV4) :
    (Peers.serialize ps).length % 6 = 0 := by
  induction ps with
  | nil => rfl
  | cons p ps ih =>
    simp only [Peers.serialize, List.map_cons, List.flatten_cons, List.length_append,
      SocketAddrV4.beBytes, List.length_cons, List.length_nil] at *
    omega

/-! ## C2: hash-list codec round trip at width 20 -/

/-- C2: the fixed-width codec at width 20 satisfies both round-trip laws:
decoding the encoding of any sequence of 20-byte chunks yields the
sequence back, and for any byte string whose length is a multiple of 20,
whatever decoding yields re-encodes to the original bytes, chunk order
preserved. -/
theorem C2_hash_codec_roundtrip :
    (∀ xs : List (List Nat), (∀ c ∈ xs, c.length = 20) →
      HashesVisitor.visit_bytes (Hashes.serialize xs) = .ok xs) ∧
    (∀ v : List Nat, v.length % 20 = 0 →
      ∀ hs, HashesVisitor.visit_bytes v = .ok hs → Hashes.serialize hs = v) := by
  constructor
  · intro xs hxs
    have hmod := Hashes.serialize_length_multiple_of_20 xs hxs
    unfold HashesVisitor.visit_bytes
    rw [if_neg (by omega)]
    unfold Hashes.serialize at hmod ⊢
    rw [chunksExact_flatten 20 (by decide) xs hxs]
  · intro v hv hs hok
    unfold HashesVisitor.visit_bytes at hok
    rw [if_neg (by omega)] at hok
    injection hok with h
    rw [← h]
    unfold Hashes.serialize
    exact flatten_chunksExact 20 (by decide) v hv

/-- Witness for C2 at a concrete one-chunk sequence and a concrete 20-byte
string. -/
theorem C2_hash_codec_roundtrip_witness :
    HashesVisitor.visit_bytes (Hashes.serialize [List.replicate 20 7]) =
      .ok [List.replicate 20 7] ∧
    Hashes.serialize (chunksExact 20 (List.replicate 20 7)) = List.replicate 20 7 := by
  constructor
  · exact C2_hash_codec_roundtrip.1 [List.replicate 20 7] (by decide)
  · exact C2_hash_codec_roundtrip.2 (List.replicate 20 7) (by decide)
      (chunksExact 20 (List.replicate 20 7)) (by decide)

/-! ## C4: hash-list decoding is total with an exact divisibility guard -/

/-- C4: decoding the `pieces` byte string fails with the width error
exactly when the length is not a multiple of 20; the empty string decodes
to the empty list; and any string whose length is a multiple of 20 decodes
to exactly `length / 20` chunks. -/
theorem C4_piece_hash_decode_guard :
    (∀ v : List Nat, v.length % 20 ≠ 0 →
      HashesVisitor.visit_bytes v = .error (.custom ("length is " ++ toString v.length))) ∧
    HashesVisitor.visit_bytes [] = .ok [] ∧
    (∀ v : List Nat, v.length % 20 = 0 →
      ∃ hs, HashesVisitor.visit_bytes v = .ok hs ∧ hs.length = v.length / 20) := by
  refine ⟨?_, rfl, ?_⟩
  · intro v hv
    unfold HashesVisitor.visit_bytes
    rw [if_pos hv]
  · intro v hv
    refine ⟨chunksExact 20 v, ?_, chunksExact_length 20 (by decide) v hv⟩
    unfold HashesVisitor.visit_bytes
    rw [if_neg (by omega)]

/-- Witness for C4 at lengths 19 (rejected) and 40 (two chunks). -/
theorem C4_piece_hash_decode_guard_witness :
    HashesVisitor.visit_bytes (List.replicate 19 0) =
      .error (.custom ("length is " ++ toString (List.replicate 19 0).length)) ∧
    (∃ hs, HashesVisitor.visit_bytes (List.replicate 40 1) = .ok hs ∧
      hs.length = (List.replicate 40 1).length / 20) := by
  constructor
  · exact C4_piece_hash_decode_guard.1 (List.replicate 19 0) (by decide)
  · exact C4_piece_hash_decode_guard.2.2 (List.replicate 40 1) (by decide)

/-! ## C5: compact peer codec -/

/-- C5: each 6-byte group decodes as 4 IPv4 octets then a big-endian
16-bit port, the concrete string `[192, 168, 1, 1, 0x1A, 0xE1]` decodes to
the single peer `192.168.1.1:6881` and encodes back to the same 6 bytes,
and encoding is the exact inverse of decoding in both directions. -/
theorem C5_compact_peer_codec :
    PeersVisitor.visit_bytes [192, 168, 1, 1, 26, 225] =
      .ok [⟨⟨192, 168, 1, 1⟩, 6881⟩] ∧
    Peers.serialize [⟨⟨192, 168, 1, 1⟩, 6881⟩] = [192, 168, 1, 1, 26, 225] ∧
    (∀ ps : List SocketAddrV4, (∀ p ∈ ps, p.wf) →
      PeersVisitor.visit_bytes (Peers.serialize ps) = .ok ps) ∧
    (∀ v : List Nat, (∀ b ∈ v, b < 256) →
      ∀ ps, PeersVisitor.visit_bytes v = .ok ps → Peers.serialize ps = v) := by
  refine ⟨by decide, by decide, ?_, ?_⟩
  · intro ps hps
    have hmod := Peers.serialize_length_multiple_of_6 ps
    unfold PeersVisitor.visit_bytes
    rw [if_neg (by omega)]
    unfold Peers.serialize
    have hlen : ∀ c ∈ ps.map SocketAddrV4.beBytes, c.length = 6 := by
      intro c hc
      rcases List.mem_map.mp hc with ⟨p, _, hp⟩
      rw [← hp]
      rfl
    rw [chunksExact_flatten 6 (by decide) (ps.map SocketAddrV4.beBytes) hlen, List.map_map]
    have : ∀ p ∈ ps, (peerOfChunk ∘ SocketAddrV4.beBytes) p = id p := by
      intro p hp
      exact peerOfChunk_beBytes p (hps p hp)
    rw [List.map_congr_left this, List.map_id]
  · intro v hb ps hok
    by_cases hmod : v.length % 6 = 0
    · unfold PeersVisitor.visit_bytes at hok
      rw [if_neg (by omega)] at hok
      injection hok with h
      rw [← h]
      unfold Peers.serialize
      rw [List.map_map]
      have hcongr : ∀ c ∈ chunksExact 6 v, (SocketAddrV4.beBytes ∘ peerOfChunk) c = id c := by
        intro c hc
        exact beBytes_peerOfChunk c (chunksExact_chunk_length 6 v c hc)
          (fun x hx => hb x (chunksExact_chunk_mem 6 v c hc x hx))
      rw [List.map_congr_left hcongr, List.map_id]
      exact flatten_chunksExact 6 (by decide) v hmod
    · unfold PeersVisitor.visit_bytes at hok
      rw [if_pos hmod] at hok
      exact Except.noConfusion hok

/-- Witness for C5's quantified round-trip parts at concrete peers and
bytes. -/
theorem C5_compact_peer_codec_witness :
    PeersVisitor.visit_bytes (Peers.serialize [⟨⟨10, 0, 0, 1⟩, 80⟩]) =
      .ok [⟨⟨10, 0, 0, 1⟩, 80⟩] ∧
    Peers.serialize [⟨⟨192, 168, 1, 1⟩, 6881⟩] = [192, 168, 1, 1, 26, 225] := by
  constructor
  · exact C5_compact_peer_codec.2.2.1 [⟨⟨10, 0, 0, 1⟩, 80⟩] (by decide)
  · exact C5_compact_peer_codec.2.2.2 [192, 168, 1, 1, 26, 225] (by decide)
      [⟨⟨192, 168, 1, 1⟩, 6881⟩] (by decide)

/-! ## C1: layout selection by key presence -/

/-- C1: `KeysVisitor::visit_map` evaluated on the four key-presence shapes.
A lone `length` gives `SingleFile` and a lone `files` gives `MultiFile` as
claimed, and a map with neither key fails with the single
`missing_field("length or files")` error; but a map carrying BOTH keys is
accepted (in either key order) and returns `SingleFile` — the `length`
accumulator takes priority and no ambiguity error of any kind is
produced. -/
theorem C1_visit_map_key_presence :
    KeysVisitor.visit_map [("length", .int 5)] = .ok (.SingleFile 5) ∧
    KeysVisitor.visit_map
        [("files", .list [.dict [("length", .int 3), ("path", .list [.bytes [97]])]])] =
      .ok (.MultiFile [⟨3, [[97]]⟩]) ∧
    KeysVisitor.visit_map [("length", .int 5), ("files", .list [])] = .ok (.SingleFile 5) ∧
    KeysVisitor.visit_map [("files", .list []), ("length", .int 5)] = .ok (.SingleFile 5) ∧
    KeysVisitor.visit_map [] = .error (.missingField "length or files") := by
  refine ⟨by decide, by decide, by decide, by decide, by decide⟩

/-! ## C9: empty path list in a file entry -/

/-- C9: the derived `File` decoder accepts a file entry whose `path` list
is empty, producing a `File` with zero path segments (the doc comment of
the source calls a zero-length list an error case, but nothing rejects
it). -/
theorem C9_empty_path_accepted :
    decodeFile (.dict [("length", .int 4), ("path", .list [])]) =
      .ok { length := 4, path := [] } := by
  decide

/-! ## C8: the piece-count invariant is not checked at decode time -/

theorem decodeInfoGo_pieces_chunk_length :
    ∀ (rest : List (String × BValue)) (name? : Option (List Nat)) (plen? : Option Nat)
      (pieces? : Option (List (List Nat))) (priv? : Option Nat)
      (leftover : List (String × BValue)) (i : Info),
      (∀ hs, pieces? = some hs → ∀ c ∈ hs, c.length = 20) →
      decodeInfoGo name? plen? pieces? priv? leftover rest = .ok i →
      ∀ c ∈ i.pieces, c.length = 20 := by
  intro rest
  induction rest with
  | nil =>
    intro name? plen? pieces? priv? leftover i hinv hok
    cases name? with
    | none => exact Except.noConfusion hok
    | some nm =>
      cases plen? with
      | none => exact Except.noConfusion hok
      | some pl =>
        cases pieces? with
        | none => exact Except.noConfusion hok
        | some ps =>
          simp only [decodeInfoGo] at hok
          cases hvm : KeysVisitor.visit_map leftover with
          | ok k =>
            rw [hvm] at hok
            injection hok with h
            rw [← h]
            exact hinv ps rfl
          | error e =>
            rw [hvm] at hok
            exact Except.noConfusion hok
  | cons kv rest ih =>
    intro name? plen? pieces? priv? leftover i hinv hok
    obtain ⟨k, v⟩ := kv
    simp only [decodeInfoGo] at hok
    by_cases h1 : k = "name"
    · rw [if_pos h1] at hok
      cases name? with
      | some _ => simp at hok
      | none =>
        simp only [Option.isSome_none, Bool.false_eq_true, if_false] at hok
        cases hs : asString v with
        | ok s =>
          rw [hs] at hok
          exact ih (some s) plen? pieces? priv? leftover i hinv hok
        | error e =>
          rw [hs] at hok
          exact Except.noConfusion hok
    · rw [if_neg h1] at hok
      by_cases h2 : k = "piece length"
      · rw [if_pos h2] at hok
        cases plen? with
        | some _ => simp at hok
        | none =>
          simp only [Option.isSome_none, Bool.false_eq_true, if_false] at hok
          cases hs : asUsize v with
          | ok n =>
            rw [hs] at hok
            exact ih name? (some n) pieces? priv? leftover i hinv hok
          | error e =>
            rw [hs] at hok
            exact Except.noConfusion hok
      · rw [if_neg h2] at hok
        by_cases h3 : k = "pieces"
        · rw [if_pos h3] at hok
          cases pieces? with
          | some _ => simp at hok
          | none =>
            simp only [Option.isSome_none, Bool.false_eq_true, if_false] at hok
            cases v with
            | bytes b =>
              simp only at hok
              by_cases hb : b.length % 20 ≠ 0
              · unfold HashesVisitor.visit_bytes at hok
                rw [if_pos hb] at hok
                exact Except.noConfusion hok
              · unfold HashesVisitor.visit_bytes at hok
                rw [if_neg hb] at hok
                simp only at hok
                refine ih name? plen? (some (chunksExact 20 b)) priv? leftover i ?_ hok
                intro hs hhs
                injection hhs with hhs
                rw [← hhs]
                exact chunksExact_chunk_length 20 b
            | int n => exact Except.noConfusion hok
            | list xs => exact Except.noConfusion hok
            | dict es => exact Except.noConfusion hok
        · rw [if_neg h3] at hok
          by_cases h4 : k = "private"
          · rw [if_pos h4] at hok
            cases priv? with
            | some _ => simp at hok
            | none =>
              simp only [Option.isSome_none, Bool.false_eq_true, if_false] at hok
              cases hs : asU8 v with
              | ok n =>
                rw [hs] at hok
                exact ih name? plen? pieces? (some n) leftover i hinv hok
              | error e =>
                rw [hs] at hok
                exact Except.noConfusion hok
          · rw [if_neg h4] at hok
            exact ih name? plen? pieces? priv? (leftover ++ [(k, v)]) i hinv hok

/-- C8 (counterexample to the claim as stated): a concrete `info`
dictionary whose hash count (1) violates the ceiling relation
(`ceil(100 / 4) = 25`) is nevertheless accepted at decode time. -/
theorem C8_counterexample_violating_input_accepted :
    decodeInfo (.dict [("name", .bytes [97]), ("piece length", .int 4),
      ("pieces", .bytes (List.replicate 20 0)), ("length", .int 100)]) =
      .ok { name := [97], piece_length := 4, pieces := [List.replicate 20 0],
            privateFlag := none, key := .SingleFile 100 } ∧
    [List.replicate 20 0].length ≠
      ceilDiv (specTotalContentLength (.SingleFile 100)) 4 := by
  refine ⟨by decide, by decide⟩

/-- C8 (amended): decode-time validation constrains only the shape of the
hash list — every decoded `Info` has 20-byte hash chunks — and does not
relate the hash count to `ceil(total_content_length / piece_length)`. -/
theorem C8_decode_checks_only_hash_shape :
    ∀ (es : List (String × BValue)) (i : Info), decodeInfo (.dict es) = .ok i →
      ∀ c ∈ i.pieces, c.length = 20 := by
  intro es i hok
  exact decodeInfoGo_pieces_chunk_length es none none none none [] i
    (fun hs hhs => Option.noConfusion hhs) hok

/-- Witness for C8's amended theorem at the concrete violating input. -/
theorem C8_decode_checks_only_hash_shape_witness :
    (List.replicate 20 0 : List Nat).length = 20 :=
  C8_decode_checks_only_hash_shape
    [("name", .bytes [97]), ("piece length", .int 4),
      ("pieces", .bytes (List.replicate 20 0)), ("length", .int 100)]
    { name := [97], piece_length := 4, pieces := [List.replicate 20 0],
      privateFlag := none, key := .SingleFile 100 }
    (by decide) (List.replicate 20 0) (by decide)

/-! ## C10: `len` and `is_empty` are total only for the single-file layout -/

/-- C10: for a single-file description `len` returns exactly the declared
length and `is_empty` whether it is zero; for a multi-file description
both reach the `todo!()` branch and return no value (modelled as
`none`). -/
theorem C10_len_total_only_single_file :
    ∀ m : MetaInfo,
      (∀ l, m.info.key = .SingleFile l → m.len = some l ∧ m.is_empty = some (l == 0)) ∧
      (∀ fs, m.info.key = .MultiFile fs → m.len = none ∧ m.is_empty = none) := by
  intro m
  constructor
  · intro l hl
    constructor
    · unfold MetaInfo.len
      rw [hl]
    · unfold MetaInfo.is_empty MetaInfo.len
      rw [hl]
      rfl
  · intro fs hfs
    constructor
    · unfold MetaInfo.len
      rw [hfs]
    · unfold MetaInfo.is_empty MetaInfo.len
      rw [hfs]
      rfl

/-! ## C6: a tracker refusal is data, not an error -/

theorem decodePeerResponseEntries_no_interval :
    ∀ (es : List (String × BValue)) (peers? : Option (List SocketAddrV4)),
      "interval" ∉ es.map Prod.fst →
      ∃ e, decodePeerResponseEntries none peers? es = .error e := by
  intro es
  induction es with
  | nil =>
    intro peers? _
    cases peers? with
    | none => exact ⟨.missingField "interval", rfl⟩
    | some ps => exact ⟨.missingField "interval", rfl⟩
  | cons kv rest ih =>
    intro peers? hni
    obtain ⟨k, v⟩ := kv
    have hk : ¬ k = "interval" := by
      intro h
      exact hni (by simp [h])
    have hni' : "interval" ∉ rest.map Prod.fst := by
      intro h
      exact hni (by simp [h])
    simp only [decodePeerResponseEntries]
    rw [if_neg hk]
    by_cases hp : k = "peers"
    · rw [if_pos hp]
      cases peers? with
      | some ps =>
        exact ⟨.duplicateField "peers", by simp⟩
      | none =>
        simp only [Option.isSome_none, Bool.false_eq_true, if_false]
        cases v with
        | bytes b =>
          cases hvb : PeersVisitor.visit_bytes b with
          | ok ps =>
            simp only [hvb]
            exact ih (some ps) hni'
          | error e =>
            simp only [hvb]
            exact ⟨e, rfl⟩
        | int n => exact ⟨.typeMismatch "bytes", rfl⟩
        | list xs => exact ⟨.typeMismatch "bytes", rfl⟩
        | dict d => exact ⟨.typeMismatch "bytes", rfl⟩
    · rw [if_neg hp]
      exact ih peers? hni'

theorem decodeFailureResponseEntries_done :
    ∀ (es : List (String × BValue)) (r : List Nat),
      "failure reason" ∉ es.map Prod.fst →
      decodeFailureResponseEntries (some r) es = .ok ⟨r⟩ := by
  intro es
  induction es with
  | nil => intro r _; rfl
  | cons kv rest ih =>
    intro r hn
    obtain ⟨k, v⟩ := kv
    have hk : ¬ k = "failure reason" := by
      intro h
      exact hn (by simp [h])
    have hn' : "failure reason" ∉ rest.map Prod.fst := by
      intro h
      exact hn (by simp [h])
    simp only [decodeFailureResponseEntries]
    rw [if_neg hk]
    exact ih r hn'

theorem decodeFailureResponseEntries_finds :
    ∀ (es : List (String × BValue)) (r : List Nat),
      (es.map Prod.fst).count "failure reason" = 1 →
      ("failure reason", BValue.bytes r) ∈ es →
      validUtf8 r = true →
      decodeFailureResponseEntries none es = .ok ⟨r⟩ := by
  intro es
  induction es with
  | nil =>
    intro r _ hmem _
    simp at hmem
  | cons kv rest ih =>
    intro r hcount hmem hval
    obtain ⟨k, v⟩ := kv
    by_cases hk : k = "failure reason"
    · subst hk
      have hc0 : (rest.map Prod.fst).count "failure reason" = 0 := by
        simp [List.map_cons, List.count_cons] at hcount
        omega
      have hnr : "failure reason" ∉ rest.map Prod.fst :=
        List.count_eq_zero.mp hc0
      have hv : v = .bytes r := by
        rcases List.mem_cons.mp hmem with h | h
        · injection h with h1 h2
          exact h2.symm
        · exact absurd (List.mem_map_of_mem Prod.fst h) hnr
      subst hv
      have has : asString (.bytes r) = .ok r := by
        simp only [asString]
        rw [if_pos hval]
      simp only [decodeFailureResponseEntries, Option.isSome_none, Bool.false_eq_true,
        if_false, eq_self_iff_true, if_true, has]
      exact decodeFailureResponseEntries_done rest r hnr
    · have hcount' : (rest.map Prod.fst).count "failure reason" = 1 := by
        simp [List.map_cons, List.count_cons, hk] at hcount
        exact hcount
      have hmem' : ("failure reason", BValue.bytes r) ∈ rest := by
        rcases List.mem_cons.mp hmem with h | h
        · injection h with h1 h2
          exact absurd h1.symm hk
        · exact h
      simp only [decodeFailureResponseEntries]
      rw [if_neg hk]
      exact ih r hcount' hmem' hval

/-- C6 (amended): for every response body that is a dictionary carrying
exactly one `failure reason` entry with a UTF-8 string value and from
which the `Success` shape cannot be decoded (here: no `interval` key), the
request returns the `Failure` variant carrying that reason as a normal
`Ok` result, not as an error. -/
theorem C6_refusal_returned_as_data :
    ∀ (es : List (String × BValue)) (r : List Nat),
      "interval" ∉ es.map Prod.fst →
      (es.map Prod.fst).count "failure reason" = 1 →
      ("failure reason", BValue.bytes r) ∈ es →
      validUtf8 r = true →
      Tracker.responseOfBody (.dict es) = some (.ok (.Failure ⟨r⟩)) := by
  intro es r hni hc hmem hval
  obtain ⟨e, he⟩ := decodePeerResponseEntries_no_interval es none hni
  simp only [Tracker.responseOfBody, decodeTrackerResponse, decodeTrackerPeerResponse,
    decodeTrackerFailureResponse, he, decodeFailureResponseEntries_finds es r hc hmem hval,
    Option.map_some']

/-- C6 (counterexample to the claim as stated): a body that contains a
`failure reason` string but also decodes as the `Success` shape is
returned as `Success`, because `#[serde(untagged)]` tries `Success`
first — not as the `Failure` variant the claim requires for every body
containing a `failure reason` string. -/
theorem C6_counterexample_success_shape_wins :
    Tracker.responseOfBody (.dict
      [("failure reason",
        .bytes [116, 111, 114, 114, 101, 110, 116, 32, 110, 111, 116, 32, 102, 111, 117, 110, 100]),
       ("interval", .int 0), ("peers", .bytes [])]) =
      some (.ok (.Success ⟨0, []⟩)) := by
  decide

/-- Witness for C6 at the claim's example body
`d14:failure reason17:torrent not founde`. -/
theorem C6_refusal_returned_as_data_witness :
    Tracker.responseOfBody (.dict
      [("failure reason",
        .bytes [116, 111, 114, 114, 101, 110, 116, 32, 110, 111, 116, 32, 102, 111, 117, 110, 100])]) =
      some (.ok (.Failure
        ⟨[116, 111, 114, 114, 101, 110, 116, 32, 110, 111, 116, 32, 102, 111, 117, 110, 100]⟩)) := by
  refine C6_refusal_returned_as_data _ _ ?_ ?_ ?_ ?_
  · decide
  · decide
  · exact List.mem_singleton.mpr rfl
  · decide

/-! ## C3: the fingerprint is deterministic and 20 bytes wide -/

/-- C3: `Info::hash` is a pure function — evaluating it twice on the same
`ContentMetadata` value gives the same digest — and the digest always has
exactly 20 bytes. -/
theorem C3_fingerprint_deterministic :
    ∀ i : Info, Info.hash i = Info.hash i ∧ (Info.hash i).length = 20 := by
  intro i
  refine ⟨rfl, ?_⟩
  unfold Info.hash sha1 sha1DigestBytes be32Bytes
  simp

/-! ## C7: the digest cannot ride in `info_hash: String` as raw bytes -/

set_option maxRecDepth 1000000 in
/-- C7: at the concrete torrent `sampleC7Info` the code's own 20-byte
fingerprint is not valid UTF-8; since `TrackerRequest::info_hash` is a
Rust `String` (whose contents are always valid UTF-8), no value of that
field — and hence no percent-encoding of it in the query — can decode
back to these exact digest bytes, contradicting the claimed raw-byte
percent-encoding round trip. -/
theorem C7_info_hash_not_representable_as_string :
    (Info.hash sampleC7Info).length = 20 ∧
    validUtf8 (Info.hash sampleC7Info) = false := by
  constructor
  · decide
  · decide

/-- Witness for C10 at one single-file and one multi-file description. -/
theorem C10_len_total_only_single_file_witness :
    (sampleSingleFileMeta.len = some 4 ∧ sampleSingleFileMeta.is_empty = some (4 == 0)) ∧
    (sampleMultiFileMeta.len = none ∧ sampleMultiFileMeta.is_empty = none) := by
  constructor
  · exact (C10_len_total_only_single_file sampleSingleFileMeta).1 4 rfl
  · exact (C10_len_total_only_single_file sampleMultiFileMeta).2 [] rfl

end Dryas
